import Mathlib

/-!
Verification of the json-autotranslate synchronization engine.

Shallow embedding of the translation synchronization engine of this
repository: file-type detection and loading (`src/util/file-system.ts`),
the array-as-string codec (`src/util/array-as-string.ts`), and the sync
orchestrator's diff / merge / emit pipeline (`src/index.ts`).

Modelling conventions:
* JavaScript strings are Lean `String`s; `String.prototype.split`,
  `Array.prototype.join` and `String.prototype.includes` are modelled on the
  underlying character lists (`splitSeq`, `jsJoin`, `containsSeq`).
* JS objects are association lists in key enumeration order
  (`List (String × _)`) with distinct keys.
* The external `flattenjs` library (`flatten.convert` / `flatten.undo`) is
  not part of the repository; it is modelled from the spec (§4.2
  FlattenCodec: one flat entry per leaf, keyed by the dot-joined path of
  object keys, and its inverse).
-/

/-! ## JavaScript string primitives -/

/-- The reserved separator used to encode arrays as strings
(`const sepKey = ' <sep /> '` in `src/util/array-as-string.ts`). -/
def sepKey : String := " <sep /> "

/-- Leftmost, non-overlapping split of a character list on a separator
sequence: the semantics of JavaScript `String.prototype.split` for a
non-empty string separator.  (An empty separator takes the else-branch
everywhere and returns the input as one piece; both separators occurring in
the source, `' <sep /> '` and `'.'`, are non-empty.) -/
def splitSeq (sep : List Char) : List Char → List (List Char)
  | [] => [[]]
  | c :: rest =>
    if sep ≠ [] ∧ sep.isPrefixOf (c :: rest) then
      [] :: splitSeq sep (rest.drop (sep.length - 1))
    else
      match splitSeq sep rest with
      | [] => [[c]]
      | p :: ps => (c :: p) :: ps
termination_by s => s.length
decreasing_by
  · simp only [List.length_cons, List.length_drop]
    omega
  · simp only [List.length_cons]
    omega

/-- Occurrence test for a character sequence: the semantics of JavaScript
`String.prototype.includes` for a string argument. -/
def containsSeq (sep : List Char) : List Char → Bool
  | [] => sep.isEmpty
  | c :: rest => sep.isPrefixOf (c :: rest) || containsSeq sep rest

/-- JS `s.split(sep)` on Lean strings. -/
def jsSplit (sep s : String) : List String :=
  (splitSeq sep.data s.data).map (fun l => String.mk l)

/-- JS `xs.join(sep)` on Lean strings. -/
def jsJoin (sep : String) (xs : List String) : String :=
  String.mk (List.intercalate sep.data (xs.map String.data))

/-- JS `s.includes(c)` for a single character `c`. -/
def jsIncludes (s : String) (c : Char) : Bool :=
  s.data.contains c

/-! ### Lemmas about `splitSeq` and `containsSeq` -/

theorem splitSeq_nil (sep : List Char) : splitSeq sep [] = [[]] := by
  simp [splitSeq]

theorem splitSeq_cons_pos (sep : List Char) (c : Char) (rest : List Char)
    (hne : sep ≠ []) (hpre : sep.isPrefixOf (c :: rest)) :
    splitSeq sep (c :: rest) = [] :: splitSeq sep (rest.drop (sep.length - 1)) := by
  rw [splitSeq]
  simp [hne, hpre]

theorem splitSeq_cons_neg (sep : List Char) (c : Char) (rest : List Char)
    (h : ¬ (sep ≠ [] ∧ sep.isPrefixOf (c :: rest))) :
    splitSeq sep (c :: rest) =
      match splitSeq sep rest with
      | [] => [[c]]
      | p :: ps => (c :: p) :: ps := by
  rw [splitSeq]
  simp only [if_neg h]

theorem splitSeq_ne_nil (sep s : List Char) : splitSeq sep s ≠ [] := by
  cases s with
  | nil => simp [splitSeq_nil]
  | cons c rest =>
    by_cases hp : sep ≠ [] ∧ sep.isPrefixOf (c :: rest)
    · rw [splitSeq_cons_pos sep c rest hp.1 hp.2]
      simp
    · rw [splitSeq_cons_neg sep c rest hp]
      cases splitSeq sep rest <;> simp

/-- A list is an infix of `c :: rest` iff it is a prefix of it or an infix of
`rest`. -/
theorem infix_cons_iff' {sep : List Char} {c : Char} {rest : List Char} :
    sep <:+: (c :: rest) ↔ sep <+: (c :: rest) ∨ sep <:+: rest := by
  constructor
  · rintro ⟨u, v, huv⟩
    cases u with
    | nil =>
      exact Or.inl ⟨v, by simpa using huv⟩
    | cons a u' =>
      refine Or.inr ⟨u', v, ?_⟩
      have := congrArg List.tail huv
      simpa using this
  · rintro (⟨v, hv⟩ | hi)
    · exact ⟨[], v, by simpa using hv⟩
    · exact hi.trans ⟨[c], [], by simp⟩

/-- If the separator occurs nowhere in `s`, the split is trivial. -/
theorem splitSeq_eq_single (sep s : List Char)
    (h : ¬ sep <:+: s) : splitSeq sep s = [s] := by
  induction s with
  | nil => exact splitSeq_nil sep
  | cons c rest ih =>
    have hp : ¬ (sep ≠ [] ∧ sep.isPrefixOf (c :: rest)) := by
      rintro ⟨-, hp⟩
      exact h (infix_cons_iff'.mpr (Or.inl ( List.isPrefixOf_iff_prefix.mp hp)))
    rw [splitSeq_cons_neg sep c rest hp]
    have hrest : ¬ sep <:+: rest := fun hi => h (infix_cons_iff'.mpr (Or.inr hi))
    rw [ih hrest]

theorem containsSeq_eq_false_iff (sep s : List Char) (hne : sep ≠ []) :
    containsSeq sep s = false ↔ ¬ sep <:+: s := by
  induction s with
  | nil =>
    simp only [containsSeq, List.isEmpty_iff, iff_true]
    constructor
    · intro h hi
      obtain ⟨u, v, huv⟩ := hi
      have : sep = [] := by
        have := List.append_eq_nil.mp (List.append_eq_nil.mp huv).1
        exact this.2
      exact hne this
    · intro _
      simp [List.isEmpty_iff, hne]
  | cons c rest ih =>
    simp only [containsSeq, Bool.or_eq_false_iff, ih, infix_cons_iff']
    constructor
    · rintro ⟨hp, hrest⟩ (hpre | hi)
      · exact absurd ( List.isPrefixOf_iff_prefix.mpr hpre) (by simp [hp])
      · exact hrest hi
    · intro hi
      refine ⟨?_, fun hr => hi (Or.inr hr)⟩
      by_contra hp
      simp only [Bool.not_eq_false] at hp
      exact hi (Or.inl ( List.isPrefixOf_iff_prefix.mp hp))

theorem intercalate_cons_cons' {α : Type} (sep x y : List α) (tl : List (List α)) :
    List.intercalate sep (x :: y :: tl) = x ++ sep ++ List.intercalate sep (y :: tl) := by
  simp [List.intercalate, List.append_assoc]

theorem intercalate_singleton' {α : Type} (sep x : List α) :
    List.intercalate sep [x] = x := by
  simp [List.intercalate]

/-- Splitting `x ++ sep ++ t` starts with `x` when `x` avoids the first
character of the separator. -/
theorem splitSeq_append (hc : Char) (sep' x t : List Char) (hx : hc ∉ x) :
    splitSeq (hc :: sep') (x ++ (hc :: sep') ++ t) = x :: splitSeq (hc :: sep') t := by
  induction x with
  | nil =>
    have hpre : (hc :: sep').isPrefixOf (hc :: (sep' ++ t)) := by
      exact List.isPrefixOf_iff_prefix.mpr ⟨t, by simp⟩
    simp only [List.nil_append, List.cons_append]
    rw [splitSeq_cons_pos (hc :: sep') hc (sep' ++ t) (by simp) hpre]
    simp [List.drop_left]
  | cons a x' ih =>
    have ha : hc ≠ a := fun h => hx (h ▸ List.mem_cons_self a x')
    have hx' : hc ∉ x' := fun h => hx (List.mem_cons_of_mem a h)
    have hp : ¬ ((hc :: sep') ≠ [] ∧ (hc :: sep').isPrefixOf (a :: (x' ++ (hc :: sep') ++ t))) := by
      rintro ⟨-, hp⟩
      obtain ⟨r, hr⟩ := List.isPrefixOf_iff_prefix.mp hp
      have hha : hc = a := by
        have h2 := congrArg List.head? hr
        simpa using h2
      exact ha hha
    simp only [List.cons_append]
    rw [splitSeq_cons_neg (hc :: sep') a (x' ++ (hc :: sep') ++ t) hp]
    have := ih hx'
    simp only [List.cons_append] at this
    rw [this]

/-- `splitSeq` is a left inverse of `List.intercalate` when every piece
avoids the first character of the separator. -/
theorem splitSeq_intercalate (hc : Char) (sep' : List Char) (ps : List (List Char))
    (hne : ps ≠ []) (h : ∀ p ∈ ps, hc ∉ p) :
    splitSeq (hc :: sep') (List.intercalate (hc :: sep') ps) = ps := by
  induction ps with
  | nil => exact absurd rfl hne
  | cons p ps' ih =>
    cases ps' with
    | nil =>
      rw [intercalate_singleton']
      apply splitSeq_eq_single
      intro hi
      exact h p (List.mem_cons_self p []) (hi.subset (List.mem_cons_self hc sep'))
    | cons q tl =>
      rw [intercalate_cons_cons']
      rw [splitSeq_append hc sep' p (List.intercalate (hc :: sep') (q :: tl))
        (h p (List.mem_cons_self p _))]
      rw [ih (by simp) (fun r hr => h r (List.mem_cons_of_mem p hr))]

/-- String-level: JS `join` then `split` round-trips when every piece avoids
the first character of the separator. -/
theorem jsSplit_jsJoin (hc : Char) (sep' : List Char) (sep : String)
    (hsep : sep.data = hc :: sep') (ps : List String) (hne : ps ≠ [])
    (h : ∀ p ∈ ps, hc ∉ p.data) :
    jsSplit sep (jsJoin sep ps) = ps := by
  unfold jsSplit jsJoin
  simp only [hsep]
  rw [splitSeq_intercalate hc sep' (ps.map String.data)
    (by simpa using hne) (by simpa using h)]
  rw [List.map_map]
  have : List.map ((fun l => String.mk l) ∘ String.data) ps = List.map id ps :=
    List.map_congr_left (fun p _ => rfl)
  simpa using this

/-- String-level: splitting a string that does not contain the separator is
trivial. -/
theorem jsSplit_eq_single (sep s : String) (hsep : sep.data ≠ [])
    (h : containsSeq sep.data s.data = false) : jsSplit sep s = [s] := by
  unfold jsSplit
  rw [splitSeq_eq_single sep.data s.data ((containsSeq_eq_false_iff sep.data s.data hsep).mp h)]
  simp

/-! ## Data model -/

/-- JSON values as they occur in translation files: string leaves, arrays of
strings, and nested objects (association lists in key enumeration order). -/
inductive Json where
  | str : String → Json
  | arr : List String → Json
  | obj : List (String × Json) → Json

/-- `type` field of a translation file
(`export type FileType = 'key-based' | 'natural' | 'auto'` in
`src/util/file-system.ts`). -/
inductive FileType where
  | keyBased | natural | auto
deriving DecidableEq, Repr

/-- Boolean equality on `Json` (structural). -/
def Json.beq : Json → Json → Bool
  | Json.str a, Json.str b => a == b
  | Json.arr a, Json.arr b => a == b
  | Json.obj [], Json.obj [] => true
  | Json.obj ((k, v) :: r), Json.obj ((k', v') :: r') =>
      k == k' && Json.beq v v' && Json.beq (Json.obj r) (Json.obj r')
  | _, _ => false

instance : BEq Json := ⟨Json.beq⟩

theorem Json.beq_iff_eq : ∀ (a b : Json), Json.beq a b = true ↔ a = b
  | Json.str a, Json.str b => by simp [Json.beq]
  | Json.str _, Json.arr _ => by simp [Json.beq]
  | Json.str _, Json.obj _ => by simp [Json.beq]
  | Json.arr _, Json.str _ => by simp [Json.beq]
  | Json.arr a, Json.arr b => by simp [Json.beq]
  | Json.arr _, Json.obj _ => by simp [Json.beq]
  | Json.obj _, Json.str _ => by simp [Json.beq]
  | Json.obj _, Json.arr _ => by simp [Json.beq]
  | Json.obj [], Json.obj [] => by simp [Json.beq]
  | Json.obj [], Json.obj (_ :: _) => by simp [Json.beq]
  | Json.obj (_ :: _), Json.obj [] => by simp [Json.beq]
  | Json.obj ((k, v) :: r), Json.obj ((k', v') :: r') => by
    have h1 := Json.beq_iff_eq v v'
    have h2 := Json.beq_iff_eq (Json.obj r) (Json.obj r')
    simp only [Json.beq, Bool.and_eq_true, h1, h2, Json.obj.injEq,
      List.cons.injEq, Prod.mk.injEq]
    constructor
    · rintro ⟨⟨hk, hv⟩, hr⟩
      exact ⟨⟨eq_of_beq hk, hv⟩, by simpa using hr⟩
    · rintro ⟨⟨hk, hv⟩, hr⟩
      exact ⟨⟨by simp [hk], hv⟩, by simpa using hr⟩
termination_by a b => sizeOf a
decreasing_by
  all_goals simp
  all_goals omega

instance : DecidableEq Json := fun a b =>
  decidable_of_iff (Json.beq a b = true) (Json.beq_iff_eq a b)

/-! ## FileTypeDetector (`src/util/file-system.ts:15-21`) -/

/-- `detectFileType`: a document is `natural` iff some top-level
*string-valued* entry has a key containing `'.'` or `' '`; otherwise
`key-based`.  (`invalidKeys = Object.keys(json).filter(k => typeof json[k]
=== 'string' && (k.includes('.') || k.includes(' ')))`.) -/
def detectFileType (json : List (String × Json)) : FileType :=
  let invalidKeys := json.filter fun e =>
    (match e.2 with | Json.str _ => true | _ => false)
      && (jsIncludes e.1 '.' || jsIncludes e.1 ' ')
  if invalidKeys.length > 0 then FileType.natural else FileType.keyBased

/-! ## Array-as-string codec (`src/util/array-as-string.ts`) -/

/-- `arrayToString`: joins every top-level array value into a single string
with the reserved separator (`obj[key] = obj[key].join(sepKey)`).  The JS
function mutates its argument in place and iterates only the top-level keys;
modelled functionally on the top-level entry list. -/
def arrayToString (kvs : List (String × Json)) : List (String × Json) :=
  kvs.map fun e =>
    match e with
    | (k, Json.arr xs) => (k, Json.str (jsJoin sepKey xs))
    | e => e

/-- The per-value split step of `stringToArray`:
`splitted = obj[key].split(sepKey); obj[key] = splitted.length === 1 ?
splitted[0] : splitted`. -/
def splitValue (s : String) : Json :=
  match jsSplit sepKey s with
  | [single] => Json.str single
  | sp => Json.arr sp

/-- `stringToArray`: re-splits every value of a flat string-valued mapping on
the reserved separator.  The JS function iterates the top-level keys of its
argument and calls `.split` on each value (so each value must be a string);
modelled on flat string-valued mappings. -/
def stringToArray (flat : List (String × String)) : List (String × Json) :=
  flat.map fun e => (e.1, splitValue e.2)


/-! ## FlattenCodec

Modelled from the spec: the `flattenjs` library used by `loadTranslations`
(`flatten.convert`) and by the emit step (`flatten.undo`) is an external
dependency whose code is not in the repository.  Spec §4.2: `flatten` walks
nested objects, producing one flat entry per leaf, keyed by the dot-joined
path of object keys leading to that leaf, and only ever sees string leaves
(arrays are pre-encoded by `arrayToString`); `unflatten` is the inverse of
the path-joining step only. -/

/-- Modelled from the spec: path-level flattening.  Produces one entry per
leaf, keyed by the list of object keys leading to it.  A non-string leaf
(an array that survived pre-encoding) has no specified flat form and yields
`none`. -/
def flattenPaths : List (String × Json) → Option (List (List String × String))
  | [] => some []
  | (k, Json.str s) :: rest =>
      (flattenPaths rest).map (fun r => ([k], s) :: r)
  | (_, Json.arr _) :: _ => none
  | (k, Json.obj kvs) :: rest => do
      let inner ← flattenPaths kvs
      let rest' ← flattenPaths rest
      pure ((inner.map fun e => (k :: e.1, e.2)) ++ rest')
termination_by kvs => sizeOf kvs
decreasing_by
  all_goals simp
  all_goals omega

/-- Dot-joining of a key path (the flat keys produced by `flatten.convert`
are the `.`-joined paths). -/
def dotJoinPath (p : List String) : String := jsJoin "." p

/-- Modelled from the spec: `flatten.convert` — flat mapping from dot-joined
path keys to string leaf values. -/
def flattenConvert (kvs : List (String × Json)) : Option (List (String × String)) :=
  (flattenPaths kvs).map (List.map fun e => (dotJoinPath e.1, e.2))

/-- Termination measure for `buildP`: total path length plus entry count. -/
def pathWeight (l : List (List String × Json)) : Nat :=
  (l.map fun e => e.1.length + 1).sum

theorem pathWeight_filter_le (p : List String × Json → Bool) (l : List (List String × Json)) :
    pathWeight (l.filter p) ≤ pathWeight l := by
  unfold pathWeight
  exact List.Sublist.sum_le_sum
    (List.Sublist.map (fun e => e.1.length + 1) (List.filter_sublist l))
    (fun a _ => Nat.zero_le a)

theorem pathWeight_map_tail_le (l : List (List String × Json)) :
    pathWeight (l.map fun e => (e.1.tail, e.2)) ≤ pathWeight l := by
  unfold pathWeight
  rw [List.map_map]
  exact List.sum_le_sum fun e _ => by
    simp only [Function.comp]
    have := List.length_tail e.1
    omega

theorem pathWeight_cons (e : List String × Json) (l : List (List String × Json)) :
    pathWeight (e :: l) = e.1.length + 1 + pathWeight l := by
  simp [pathWeight]

/-- Modelled from the spec: path-level unflattening — the inverse of the
path-joining step.  Entries are grouped by their first path segment in order
of first appearance; conflicting later bindings of an already-emitted key
are dropped (they cannot arise from the image of `flattenPaths`). -/
def buildP : List (List String × Json) → List (String × Json)
  | [] => []
  | ([], _) :: rest => buildP rest
  | ([k], v) :: rest =>
      (k, v) :: buildP (rest.filter fun e => !(e.1.head? == some k))
  | (k :: p :: ps, v) :: rest =>
      (k, Json.obj (buildP ((p :: ps, v) ::
        ((rest.filter fun e => e.1.head? == some k).map fun e => (e.1.tail, e.2))))) ::
      buildP (rest.filter fun e => !(e.1.head? == some k))
termination_by l => pathWeight l
decreasing_by
  · simp [pathWeight_cons]
  · have := pathWeight_filter_le (fun e => !(e.1.head? == some k)) rest
    simp only [pathWeight_cons]
    omega
  · have h1 := pathWeight_filter_le (fun e => e.1.head? == some k) rest
    have h2 := pathWeight_map_tail_le (rest.filter fun e => e.1.head? == some k)
    simp only [pathWeight_cons]
    simp only [List.length_cons]
    omega
  · have := pathWeight_filter_le (fun e => !(e.1.head? == some k)) rest
    simp only [pathWeight_cons, List.length_cons]
    omega

/-- Splitting a flat key into its path segments (JS `split('.')`). -/
def dotSplit (k : String) : List String := jsSplit "." k

/-- Modelled from the spec: `flatten.undo` — re-nest a flat mapping by
splitting each key on `.` and rebuilding the nested object structure. -/
def unflatten (flat : List (String × Json)) : List (String × Json) :=
  buildP (flat.map fun e => (dotSplit e.1, e.2))


/-! ## Well-formedness conditions for the round trip -/

/-- `s` does not contain the reserved separator (JS
`!s.includes(' <sep /> ')`). -/
def sepFree (s : String) : Bool := !(containsSeq sepKey.data s.data)

/-- `s` contains no space character (a fortiori no occurrence of the
reserved separator, which begins with a space). -/
def spaceFree (s : String) : Bool := !(s.data.contains ' ')

/-- `s` contains no `'.'` (the flat-path separator). -/
def dotFree (s : String) : Bool := !(s.data.contains '.')

/-- The keys of an object are pairwise distinct (JS objects cannot have
duplicate keys). -/
def nodupKeys : List String → Bool
  | [] => true
  | k :: r => !(r.contains k) && nodupKeys r

mutual
/-- Structural conditions under which path-level unflattening inverts
path-level flattening: string leaves only, dot-free keys, distinct keys and
no empty objects at every level. -/
def structV : Json → Bool
  | Json.str _ => true
  | Json.arr _ => false
  | Json.obj kvs => !kvs.isEmpty && nodupKeys (kvs.map Prod.fst) && structEntries kvs

/-- Entry-list form of `structV`. -/
def structEntries : List (String × Json) → Bool
  | [] => true
  | (k, v) :: rest => dotFree k && structV v && structEntries rest
end

mutual
/-- Conditions on values *below* the top level for the full
encode/flatten/unflatten/decode round trip: string leaves that do not
contain the reserved separator, no arrays (the pre-encoding of
`arrayToString` touches only top-level values), dot-free distinct keys, no
empty objects. -/
def goodVal : Json → Bool
  | Json.str s => sepFree s
  | Json.arr _ => false
  | Json.obj kvs => !kvs.isEmpty && nodupKeys (kvs.map Prod.fst) && goodEntries kvs

/-- Entry-list form of `goodVal`. -/
def goodEntries : List (String × Json) → Bool
  | [] => true
  | (k, v) :: rest => dotFree k && goodVal v && goodEntries rest
end

/-- Conditions on top-level values for the round trip: separator-free string
leaves, arrays of length ≥ 2 whose elements contain no space character, or
well-formed nested objects. -/
def goodTopVal : Json → Bool
  | Json.str s => sepFree s
  | Json.arr xs => decide (2 ≤ xs.length) && xs.all spaceFree
  | Json.obj kvs => !kvs.isEmpty && nodupKeys (kvs.map Prod.fst) && goodEntries kvs

/-- Conditions on a whole key-based document for the round trip. -/
def goodTop (kvs : List (String × Json)) : Bool :=
  nodupKeys (kvs.map Prod.fst) && kvs.all fun e => dotFree e.1 && goodTopVal e.2

/-- Replace every string leaf `s` of an entry list by `g s`, recursively. -/
def mapLeaves (g : String → Json) : List (String × Json) → List (String × Json)
  | [] => []
  | (k, Json.str s) :: rest => (k, g s) :: mapLeaves g rest
  | (k, Json.arr xs) :: rest => (k, Json.arr xs) :: mapLeaves g rest
  | (k, Json.obj kvs) :: rest => (k, Json.obj (mapLeaves g kvs)) :: mapLeaves g rest
termination_by l => sizeOf l
decreasing_by
  all_goals simp
  all_goals omega

/-! ### The flatten/unflatten round trip -/

theorem contains_eq_false_iff_not_mem {α : Type} [BEq α] [LawfulBEq α] (l : List α) (a : α) :
    l.contains a = false ↔ a ∉ l := by
  simp [List.contains_iff_exists_mem_beq]

/-- Main structural lemma: on any entry list satisfying the structural
conditions, `flattenPaths` succeeds, emits non-empty dot-free paths whose
heads are top-level keys, and `buildP` reconstructs the entry list after an
arbitrary per-leaf value transformation `g`. -/
theorem flattenPaths_spec (n : Nat) :
    ∀ (kvs : List (String × Json)), sizeOf kvs ≤ n →
    nodupKeys (kvs.map Prod.fst) = true → structEntries kvs = true →
    ∃ flat, flattenPaths kvs = some flat ∧
      (kvs ≠ [] → flat ≠ []) ∧
      (∀ e ∈ flat, (∃ k ∈ kvs.map Prod.fst, e.1.head? = some k) ∧
        ∀ seg ∈ e.1, dotFree seg = true) ∧
      ∀ g : String → Json, buildP (flat.map fun e => (e.1, g e.2)) = mapLeaves g kvs := by
  induction n with
  | zero =>
    intro kvs hsz _ _
    exact absurd hsz (by cases kvs <;> simp)
  | succ n ih =>
    intro kvs hsz hnd hst
    match kvs with
    | [] =>
      exact ⟨[], by simp [flattenPaths], by simp, by simp, by simp [buildP, mapLeaves]⟩
    | (k, Json.arr xs) :: rest =>
      simp [structEntries, structV] at hst
    | (k, Json.str s) :: rest =>
      have hd : dotFree k = true ∧ structEntries rest = true := by
        simp only [structEntries, structV, Bool.and_eq_true] at hst
        exact ⟨hst.1.1, hst.2⟩
      have hk : (rest.map Prod.fst).contains k = false ∧ nodupKeys (rest.map Prod.fst) = true := by
        simp only [List.map_cons, nodupKeys, Bool.and_eq_true, Bool.not_eq_true'] at hnd
        exact hnd
      have hsz' : sizeOf rest ≤ n := by
        simp only [List.cons.sizeOf_spec, Prod.mk.sizeOf_spec] at hsz
        omega
      obtain ⟨flatRest, hfr, -, hheads, hbuild⟩ := ih rest hsz' hk.2 hd.2
      refine ⟨([k], s) :: flatRest, ?_, ?_, ?_, ?_⟩
      · simp [flattenPaths, hfr]
      · simp
      · intro e he
        rcases List.mem_cons.mp he with rfl | he'
        · refine ⟨⟨k, by simp, rfl⟩, ?_⟩
          intro seg hseg
          simp only [List.mem_singleton] at hseg
          subst hseg
          exact hd.1
        · obtain ⟨⟨k', hk', hh⟩, hsegs⟩ := hheads e he'
          exact ⟨⟨k', by simp [hk'], hh⟩, hsegs⟩
      · intro g
        simp only [List.map_cons]
        rw [show ((([k], s) : List String × String).1, g ([k], s).2) = (([k] : List String), g s) from rfl]
        have hfilter : (flatRest.map fun e => (e.1, g e.2)).filter
            (fun e => !(e.1.head? == some k)) = flatRest.map fun e => (e.1, g e.2) := by
          apply List.filter_eq_self.mpr
          intro e' he'
          obtain ⟨e0, he0, rfl⟩ := List.mem_map.mp he'
          obtain ⟨⟨k', hk', hh⟩, -⟩ := hheads e0 he0
          have hkk : k' ≠ k := by
            intro h
            subst h
            exact (contains_eq_false_iff_not_mem _ _).mp hk.1 hk'
          simp [hh, hkk]
        simp only [buildP, hfilter, hbuild g, mapLeaves]
    | (k, Json.obj kvs') :: rest =>
      have hd : dotFree k = true ∧ (!kvs'.isEmpty) = true ∧
          nodupKeys (kvs'.map Prod.fst) = true ∧ structEntries kvs' = true ∧
          structEntries rest = true := by
        simp only [structEntries, structV, Bool.and_eq_true] at hst
        refine ⟨?_, ?_, ?_, ?_, ?_⟩ <;> tauto
      have hk : (rest.map Prod.fst).contains k = false ∧
          nodupKeys (rest.map Prod.fst) = true := by
        simp only [List.map_cons, nodupKeys, Bool.and_eq_true, Bool.not_eq_true'] at hnd
        exact hnd
      have hsz1 : sizeOf kvs' ≤ n := by
        simp only [List.cons.sizeOf_spec, Prod.mk.sizeOf_spec, Json.obj.sizeOf_spec] at hsz
        omega
      have hsz2 : sizeOf rest ≤ n := by
        simp only [List.cons.sizeOf_spec, Prod.mk.sizeOf_spec, Json.obj.sizeOf_spec] at hsz
        omega
      obtain ⟨innerFlat, hfi, hine, hiheads, hibuild⟩ := ih kvs' hsz1 hd.2.2.1 hd.2.2.2.1
      obtain ⟨flatRest, hfr, -, hrheads, hrbuild⟩ := ih rest hsz2 hk.2 hd.2.2.2.2
      have hkvs'ne : kvs' ≠ [] := by
        intro h
        subst h
        simp [List.isEmpty] at hd
      have hinne : innerFlat ≠ [] := hine hkvs'ne
      refine ⟨(innerFlat.map fun e => (k :: e.1, e.2)) ++ flatRest, ?_, ?_, ?_, ?_⟩
      · simp [flattenPaths, hfi, hfr]
      · intro _ h
        rcases List.append_eq_nil.mp h with ⟨h1, -⟩
        exact hinne (List.map_eq_nil_iff.mp h1)
      · intro e he
        rcases List.mem_append.mp he with hin | hre
        · obtain ⟨e0, he0, rfl⟩ := List.mem_map.mp hin
          refine ⟨⟨k, by simp, rfl⟩, ?_⟩
          intro seg hseg
          rcases List.mem_cons.mp hseg with rfl | hseg'
          · exact hd.1
          · exact (hiheads e0 he0).2 seg hseg'
        · obtain ⟨⟨k', hk', hh⟩, hsegs⟩ := hrheads e hre
          exact ⟨⟨k', by simp [hk'], hh⟩, hsegs⟩
      · intro g
        obtain ⟨⟨ip, iv⟩, innerTail, rfl⟩ : ∃ a b, innerFlat = a :: b := by
          cases innerFlat with
          | nil => exact absurd rfl hinne
          | cons a b => exact ⟨a, b, rfl⟩
        obtain ⟨iph, ipt, rfl⟩ : ∃ h t, ip = h :: t := by
          obtain ⟨⟨k', -, hh⟩, -⟩ := hiheads (ip, iv) (List.mem_cons_self _ _)
          cases ip with
          | nil => simp at hh
          | cons a b => exact ⟨a, b, rfl⟩
        simp only [List.map_append, List.map_map, List.map_cons, Function.comp_def,
          List.cons_append]
        rw [buildP]
        have hfilterA : ((innerTail.map fun e => ((k :: e.1 : List String), g e.2)) ++
            flatRest.map fun e => (e.1, g e.2)).filter (fun e => e.1.head? == some k)
            = innerTail.map fun e => ((k :: e.1 : List String), g e.2) := by
          rw [List.filter_append]
          rw [List.filter_eq_self.mpr (by
            intro e' he'
            obtain ⟨e0, -, rfl⟩ := List.mem_map.mp he'
            simp)]
          rw [List.filter_eq_nil_iff.mpr (by
            intro e' he'
            obtain ⟨e0, he0, rfl⟩ := List.mem_map.mp he'
            obtain ⟨⟨k', hk', hh⟩, -⟩ := hrheads e0 he0
            have hkk : k' ≠ k := by
              intro h
              subst h
              exact (contains_eq_false_iff_not_mem _ _).mp hk.1 hk'
            simp [hh, hkk])]
          simp
        have hfilterB : ((innerTail.map fun e => ((k :: e.1 : List String), g e.2)) ++
            flatRest.map fun e => (e.1, g e.2)).filter (fun e => !(e.1.head? == some k))
            = flatRest.map fun e => (e.1, g e.2) := by
          rw [List.filter_append]
          rw [List.filter_eq_nil_iff.mpr (by
            intro e' he'
            obtain ⟨e0, -, rfl⟩ := List.mem_map.mp he'
            simp)]
          rw [List.filter_eq_self.mpr (by
            intro e' he'
            obtain ⟨e0, he0, rfl⟩ := List.mem_map.mp he'
            obtain ⟨⟨k', hk', hh⟩, -⟩ := hrheads e0 he0
            have hkk : k' ≠ k := by
              intro h
              subst h
              exact (contains_eq_false_iff_not_mem _ _).mp hk.1 hk'
            simp [hh, hkk])]
          simp
        rw [hfilterA, hfilterB]
        have htails : (innerTail.map fun e => ((k :: e.1 : List String), g e.2)).map
            (fun e => (e.1.tail, e.2)) = innerTail.map fun e => (e.1, g e.2) := by
          rw [List.map_map]
          rfl
        rw [htails]
        have := hibuild g
        simp only [List.map_cons] at this
        rw [this, hrbuild g]
        simp [mapLeaves]

theorem sepKey_data :
    sepKey.data = ' ' :: ('<' :: 's' :: 'e' :: 'p' :: ' ' :: '/' :: '>' :: ' ' :: []) := rfl

theorem dot_data : (".").data = '.' :: [] := rfl

/-- Decoding a separator-free string is the identity. -/
theorem splitValue_sepFree (s : String) (h : sepFree s = true) :
    splitValue s = Json.str s := by
  unfold splitValue
  rw [jsSplit_eq_single sepKey s (by rw [sepKey_data]; simp)
    (by simpa [sepFree] using h)]

/-- Decoding the encoded form of an array of length ≥ 2 with space-free
elements recovers the array. -/
theorem splitValue_jsJoin (xs : List String) (hlen : 2 ≤ xs.length)
    (h : ∀ x ∈ xs, spaceFree x = true) :
    splitValue (jsJoin sepKey xs) = Json.arr xs := by
  unfold splitValue
  rw [jsSplit_jsJoin ' ' ('<' :: 's' :: 'e' :: 'p' :: ' ' :: '/' :: '>' :: ' ' :: [])
    sepKey sepKey_data xs
    (by intro hx; subst hx; simp at hlen)
    (by
      intro p hp
      have := h p hp
      simpa [spaceFree, contains_eq_false_iff_not_mem] using this)]
  match xs, hlen with
  | x :: y :: tl, _ => rfl

/-- Splitting a dot-joined path of dot-free segments recovers the path. -/
theorem dotSplit_dotJoinPath (p : List String) (hne : p ≠ [])
    (h : ∀ seg ∈ p, dotFree seg = true) :
    dotSplit (dotJoinPath p) = p := by
  unfold dotSplit dotJoinPath
  exact jsSplit_jsJoin '.' [] "." dot_data p hne (by
    intro seg hseg
    have := h seg hseg
    simpa [dotFree, contains_eq_false_iff_not_mem] using this)

/-- `goodEntries` implies the structural conditions. -/
theorem structEntries_of_goodEntries (n : Nat) :
    ∀ kvs : List (String × Json), sizeOf kvs ≤ n →
    goodEntries kvs = true → structEntries kvs = true := by
  induction n with
  | zero =>
    intro kvs hsz _
    exact absurd hsz (by cases kvs <;> simp)
  | succ n ih =>
    intro kvs hsz hg
    match kvs with
    | [] => simp [structEntries]
    | (k, Json.str s) :: rest =>
      simp only [goodEntries, goodVal, Bool.and_eq_true] at hg
      have hsz' : sizeOf rest ≤ n := by
        simp only [List.cons.sizeOf_spec, Prod.mk.sizeOf_spec] at hsz
        omega
      simp only [structEntries, structV, Bool.and_eq_true]
      have hrest : structEntries rest = true := ih rest hsz' (by tauto)
      repeat' apply And.intro
      all_goals first | trivial | tauto
    | (k, Json.arr xs) :: rest =>
      simp [goodEntries, goodVal] at hg
    | (k, Json.obj kvs') :: rest =>
      simp only [goodEntries, goodVal, Bool.and_eq_true] at hg
      have hsz1 : sizeOf kvs' ≤ n := by
        simp only [List.cons.sizeOf_spec, Prod.mk.sizeOf_spec, Json.obj.sizeOf_spec] at hsz
        omega
      have hsz2 : sizeOf rest ≤ n := by
        simp only [List.cons.sizeOf_spec, Prod.mk.sizeOf_spec, Json.obj.sizeOf_spec] at hsz
        omega
      have hin : structEntries kvs' = true := ih kvs' hsz1 (by tauto)
      have hrest : structEntries rest = true := ih rest hsz2 (by tauto)
      simp only [structEntries, structV, Bool.and_eq_true]
      repeat' apply And.intro
      all_goals first | trivial | tauto

/-- Below the top level, decoding leaves a well-formed entry list unchanged
(all string leaves are separator-free). -/
theorem mapLeaves_splitValue_id (n : Nat) :
    ∀ kvs : List (String × Json), sizeOf kvs ≤ n →
    goodEntries kvs = true → mapLeaves splitValue kvs = kvs := by
  induction n with
  | zero =>
    intro kvs hsz _
    exact absurd hsz (by cases kvs <;> simp)
  | succ n ih =>
    intro kvs hsz hg
    match kvs with
    | [] => simp [mapLeaves]
    | (k, Json.str s) :: rest =>
      simp only [goodEntries, goodVal, Bool.and_eq_true] at hg
      have hsz' : sizeOf rest ≤ n := by
        simp only [List.cons.sizeOf_spec, Prod.mk.sizeOf_spec] at hsz
        omega
      have hsep : sepFree s = true := by tauto
      have hrest : goodEntries rest = true := by tauto
      simp only [mapLeaves]
      rw [splitValue_sepFree s hsep, ih rest hsz' hrest]
    | (k, Json.arr xs) :: rest =>
      simp [goodEntries, goodVal] at hg
    | (k, Json.obj kvs') :: rest =>
      simp only [goodEntries, goodVal, Bool.and_eq_true] at hg
      have hsz1 : sizeOf kvs' ≤ n := by
        simp only [List.cons.sizeOf_spec, Prod.mk.sizeOf_spec, Json.obj.sizeOf_spec] at hsz
        omega
      have hsz2 : sizeOf rest ≤ n := by
        simp only [List.cons.sizeOf_spec, Prod.mk.sizeOf_spec, Json.obj.sizeOf_spec] at hsz
        omega
      simp only [mapLeaves]
      rw [ih kvs' hsz1 (by tauto), ih rest hsz2 (by tauto)]

/-- `arrayToString` preserves the key sequence. -/
theorem arrayToString_map_fst (kvs : List (String × Json)) :
    (arrayToString kvs).map Prod.fst = kvs.map Prod.fst := by
  induction kvs with
  | nil => rfl
  | cons e rest ih =>
    obtain ⟨k, v⟩ := e
    cases v <;> simp [arrayToString] at ih ⊢ <;> exact ih

/-- The encoded form of a `goodTop` document satisfies the structural
conditions. -/
theorem structEntries_arrayToString (kvs : List (String × Json))
    (h : goodTop kvs = true) : structEntries (arrayToString kvs) = true := by
  unfold goodTop at h
  rw [Bool.and_eq_true] at h
  obtain ⟨-, hall⟩ := h
  rw [List.all_eq_true] at hall
  induction kvs with
  | nil => simp [arrayToString, structEntries]
  | cons e rest ih =>
    obtain ⟨k, v⟩ := e
    have he := hall (k, v) (List.mem_cons_self _ _)
    rw [Bool.and_eq_true] at he
    have hrest := ih (fun x hx => hall x (List.mem_cons_of_mem _ hx))
    cases v with
    | str s =>
      simp only [arrayToString, List.map_cons, structEntries, structV, Bool.and_eq_true]
      have hk := he.1
      repeat' apply And.intro
      all_goals first | trivial | tauto
    | arr xs =>
      simp only [arrayToString, List.map_cons, structEntries, structV, Bool.and_eq_true]
      have hk := he.1
      repeat' apply And.intro
      all_goals first | trivial | tauto
    | obj kvs' =>
      have hv := he.2
      simp only [goodTopVal, Bool.and_eq_true] at hv
      have hin : structEntries kvs' = true :=
        structEntries_of_goodEntries (sizeOf kvs') kvs' le_rfl (by tauto)
      have hk := he.1
      simp only [arrayToString, List.map_cons, structEntries, structV, Bool.and_eq_true]
      repeat' apply And.intro
      all_goals first | trivial | tauto

/-- Decoding undoes the top-level array encoding on a `goodTop` document. -/
theorem mapLeaves_splitValue_arrayToString (kvs : List (String × Json))
    (h : goodTop kvs = true) :
    mapLeaves splitValue (arrayToString kvs) = kvs := by
  unfold goodTop at h
  rw [Bool.and_eq_true] at h
  obtain ⟨-, hall⟩ := h
  rw [List.all_eq_true] at hall
  induction kvs with
  | nil => simp [arrayToString, mapLeaves]
  | cons e rest ih =>
    obtain ⟨k, v⟩ := e
    have he := hall (k, v) (List.mem_cons_self _ _)
    rw [Bool.and_eq_true] at he
    have hrest := ih (fun x hx => hall x (List.mem_cons_of_mem _ hx))
    cases v with
    | str s =>
      have hv : sepFree s = true := by simpa [goodTopVal] using he.2
      simp only [arrayToString, List.map_cons, mapLeaves]
      rw [splitValue_sepFree s hv]
      simp only [arrayToString] at hrest
      rw [hrest]
    | arr xs =>
      have hv := he.2
      simp only [goodTopVal, Bool.and_eq_true, decide_eq_true_eq, List.all_eq_true] at hv
      simp only [arrayToString, List.map_cons, mapLeaves]
      rw [splitValue_jsJoin xs (by tauto) (by tauto)]
      simp only [arrayToString] at hrest
      rw [hrest]
    | obj kvs' =>
      have hv := he.2
      simp only [goodTopVal, Bool.and_eq_true] at hv
      simp only [arrayToString, List.map_cons, mapLeaves]
      rw [mapLeaves_splitValue_id (sizeOf kvs') kvs' le_rfl (by tauto)]
      simp only [arrayToString] at hrest
      rw [hrest]

/-- The load/emit round trip for one key-based document, per the spec's
flatten round-trip property: top-level array pre-encoding
(`arrayToString`), flattening (`flatten.convert`), re-application of the
array decode step to the flat values (`stringToArray`, splitting on the
reserved separator), and re-nesting (`flatten.undo`). -/
def roundTrip (kvs : List (String × Json)) : Option (List (String × Json)) :=
  (flattenConvert (arrayToString kvs)).map fun flat => unflatten (stringToArray flat)

theorem roundTrip_eq_self (kvs : List (String × Json)) (h : goodTop kvs = true) :
    roundTrip kvs = some kvs := by
  have hnd : nodupKeys ((arrayToString kvs).map Prod.fst) = true := by
    rw [arrayToString_map_fst]
    unfold goodTop at h
    rw [Bool.and_eq_true] at h
    exact h.1
  have hst := structEntries_arrayToString kvs h
  obtain ⟨flat, hf, -, hheads, hbuild⟩ :=
    flattenPaths_spec (sizeOf (arrayToString kvs)) (arrayToString kvs) le_rfl hnd hst
  unfold roundTrip flattenConvert unflatten stringToArray
  rw [hf]
  simp only [Option.map_some', Option.some.injEq, List.map_map]
  have hmap : flat.map (((fun e => ((dotSplit e.1 : List String), e.2)) ∘
      (fun e => (e.1, splitValue e.2))) ∘ (fun e => (dotJoinPath e.1, e.2)))
      = flat.map fun e => (e.1, splitValue e.2) := by
    apply List.map_congr_left
    intro e he
    obtain ⟨⟨k', -, hh⟩, hsegs⟩ := hheads e he
    have hne : e.1 ≠ [] := by
      intro h0
      rw [h0] at hh
      simp at hh
    simp only [Function.comp_def]
    rw [dotSplit_dotJoinPath e.1 hne hsegs]
  rw [hmap, hbuild splitValue, mapLeaves_splitValue_arrayToString kvs h]

/-! ## SyncOrchestrator (`src/index.ts`) -/

/-- JS object lookup `m[k]` on an association list (keys unique). -/
def objLookup {α : Type} (m : List (String × α)) (k : String) : Option α :=
  (m.find? fun e => e.1 == k).map fun e => e.2

/-- lodash `omit(m, ks)`: drop the listed keys. -/
def omitKeys {α : Type} (m : List (String × α)) (ks : List String) : List (String × α) :=
  m.filter fun e => !(ks.contains e.1)

/-- JS object spread `{...a, ...b}`: the keys of `a` in their order, with
values overridden by `b` where present, followed by the keys of `b` absent
from `a`. -/
def objSpread {α : Type} (a b : List (String × α)) : List (String × α) :=
  (a.map fun e => (e.1, (objLookup b e.1).getD e.2)) ++
    b.filter fun e => !((a.map Prod.fst).contains e.1)

/-- JS `{...acc, [k]: v}`: update in place if the key is present, else
append. -/
def objInsert {α : Type} (acc : List (String × α)) (k : String) (v : α) : List (String × α) :=
  if (acc.map Prod.fst).contains k then
    acc.map fun e => if e.1 == k then (k, v) else e
  else acc ++ [(k, v)]

/-- `stringsToTranslate` (`src/index.ts:264-274`): template keys absent from
the existing target keys, in template enumeration order.  For `key-based`
templates the submitted value is the template's stored value at that key,
joined with a single space if it is an array (`value = Array.isArray(value)
? value.join(' ') : value`); for `natural` templates it is the key itself
(`let value = key`).  The `none` branch of the lookup is unreachable (the
key is enumerated from the content). -/
def stringsToTranslate (ftype : FileType) (content : List (String × Json))
    (existingKeys : List String) : List (String × Json) :=
  ((content.map Prod.fst).filter fun key => !(existingKeys.contains key)).map fun key =>
    (key,
      if ftype = FileType.keyBased then
        match objLookup content key with
        | some (Json.arr xs) => Json.str (jsJoin " " xs)
        | some v => v
        | none => Json.str key
      else Json.str key)

/-- `unusedStrings` (`src/index.ts:276-278`): existing target keys absent
from the template keys, in target enumeration order. -/
def unusedStrings (existingKeys templateKeys : List String) : List String :=
  existingKeys.filter fun key => !(templateKeys.contains key)

/-- `newKeys` (`src/index.ts:286-289`): fold the translated strings into an
object keyed by the input keys
(`translatedStrings.reduce((acc, cur) => ({...acc, [cur.key]: cur.translated}), {})`). -/
def newKeysObj (translated : List (String × String)) : List (String × String) :=
  translated.foldl (fun acc e => objInsert acc e.1 e.2) []

/-- `translatedFile` (`src/index.ts:292-298`): the merged flat content
`{...omit(existingTranslations, deleteUnusedStrings ? unusedStrings : []),
...newKeys}`. -/
def translatedFile (existingTranslations : List (String × Json))
    (newKeys : List (String × Json)) (deleteUnused : Bool) (unused : List String) :
    List (String × Json) :=
  objSpread (omitKeys existingTranslations (if deleteUnused then unused else [])) newKeys

/-- The document serialized by the write step (`src/index.ts:300-309`):
key-based content is re-nested with `flatten.undo`, natural content is
written as a flat mapping directly.  Note that the emit step performs no
re-splitting of array-encoded leaves (`stringToArray` is never called in
`src/index.ts`). -/
def emitContent (ftype : FileType) (content : List (String × Json)) : Json :=
  if ftype = FileType.keyBased then Json.obj (unflatten content) else Json.obj content

/-- The in-memory representation produced by `loadTranslations`
(`src/util/file-system.ts:23-43`). -/
structure TranslationFile where
  name : String
  originalContent : List (String × Json)
  type : FileType
  content : List (String × Json)

/-- Outcome of the per-(template file, target language) step
(`src/index.ts:253-319`): the computed diff and the document written, if
any. -/
structure FileReport where
  toTranslate : List (String × Json)
  unused : List String
  written : Option Json

/-- A filesystem side effect of the run. -/
inductive FsEffect where
  | write (language file : String) (content : Json)
  | delete (language file : String)

/-- The per-(template file, target language) step (`src/index.ts:253-319`).
The provider is modelled as a function `tr` from `{key, value}` to the
translated text, applied to the whole `stringsToTranslate` batch
(`translationService.translateStrings` preserves the input key identity).
The file is written unless the selected service is the dry-run strategy
(`if (service !== 'dryRun')`). -/
def processFile (service : String) (deleteUnused : Bool)
    (tr : String → Json → String) (existingFiles : List TranslationFile)
    (templateFile : TranslationFile) : FileReport :=
  let languageFile := existingFiles.find? fun f => f.name == templateFile.name
  let existingKeys := match languageFile with
    | some f => f.content.map Prod.fst
    | none => []
  let existingTranslations := match languageFile with
    | some f => f.content
    | none => []
  let sToT := stringsToTranslate templateFile.type templateFile.content existingKeys
  let unused := unusedStrings existingKeys (templateFile.content.map Prod.fst)
  let translated := sToT.map fun e => (e.1, tr e.1 e.2)
  let newKeys := (newKeysObj translated).map fun e => (e.1, Json.str e.2)
  { toTranslate := sToT
    unused := unused
    written :=
      if service ≠ "dryRun" then
        some (emitContent templateFile.type
          (translatedFile existingTranslations newKeys deleteUnused unused))
      else none }

/-- The per-target-language loop body (`src/index.ts:216-323`): a language
not offered by the provider is skipped entirely (`continue`); otherwise the
existing files are loaded, obsolete files are deleted when requested
(`fs.unlinkSync`, not guarded by the dry-run check), and every template
file is processed. -/
def processLanguage (availableLanguages : List String) (service : String)
    (deleteUnused : Bool) (tr : String → Json → String)
    (templateFiles : List TranslationFile)
    (loadExisting : String → List TranslationFile) (language : String) :
    List FsEffect × List FileReport :=
  if !(availableLanguages.contains language) then ([], [])
  else
    let existingFiles := loadExisting language
    let deleteEffects :=
      if deleteUnused then
        (existingFiles.filter fun f =>
          !((templateFiles.map TranslationFile.name).contains f.name)).map
          fun f => FsEffect.delete language f.name
      else []
    let reports := templateFiles.map (processFile service deleteUnused tr existingFiles)
    let writeEffects := (templateFiles.map fun t =>
      match (processFile service deleteUnused tr existingFiles t).written with
      | some c => [FsEffect.write language t.name c]
      | none => []).flatten
    (deleteEffects ++ writeEffects, reports)

/-- `inconsistentKeys` of a natural file (`src/index.ts:140-142`): keys
whose stored value differs from the key (`key !== file.content[key]`). -/
def inconsistentKeys (content : List (String × Json)) : List String :=
  (content.map Prod.fst).filter fun key =>
    match objLookup content key with
    | some (Json.str v) => !(key == v)
    | _ => true

/-- `invalidKeys` of a key-based file (`src/index.ts:181-183`): top-level
string-valued keys of the original content containing a `.`. -/
def invalidKeys (originalContent : List (String × Json)) : List String :=
  (originalContent.map Prod.fst).filter fun k =>
    (match objLookup originalContent k with
      | some (Json.str _) => true
      | _ => false)
      && jsIncludes k '.'

/-- The fixed content produced by `fixSourceInconsistencies`
(`src/util/file-system.ts:45-59`): every key's value is reset to the key. -/
def fixContent (content : List (String × Json)) : List (String × Json) :=
  (content.map Prod.fst).foldl (fun acc k => objInsert acc k (Json.str k)) []

/-- The whole orchestrator run (`src/index.ts:64-326`).  Fatal conditions in
source order: missing source-language folder (78), unknown service (82),
unknown matcher (86), source language without JSON files (97), source
language unsupported by the provider (128); then the non-fatal
inconsistency report (with optional fix rewriting the natural source files,
136-175), the fatal invalid-key check (`process.exit(1)`, 177-214, modelled
as an error outcome), and finally the per-target-language loop.  The result
is the list of filesystem effects and the per-language reports. -/
def runTranslate (languageFolders : List String) (sourceLang : String)
    (serviceExists matcherExists : Bool) (availableLanguages : List String)
    (serviceName service : String) (deleteUnused fixInconsistencies : Bool)
    (tr : String → Json → String) (templateFiles : List TranslationFile)
    (loadExisting : String → List TranslationFile) :
    Except String (List FsEffect × List (List FileReport)) :=
  let targetLanguages := languageFolders.filter fun f => !(f == sourceLang)
  if !(languageFolders.contains sourceLang) then
    Except.error ("The source language " ++ sourceLang ++ " doesn't exist.")
  else if !serviceExists then
    Except.error ("The service " ++ service ++ " doesn't exist.")
  else if !matcherExists then
    Except.error ("The matcher doesn't exist.")
  else if templateFiles.isEmpty then
    Except.error ("The source language " ++ sourceLang ++ " doesn't contain any JSON files.")
  else if !(availableLanguages.contains sourceLang) then
    Except.error (serviceName ++ " doesn't support the source language " ++ sourceLang)
  else
    let fixEffects :=
      if fixInconsistencies
          && (templateFiles.filter fun f => f.type == FileType.natural).any
            (fun f => !(inconsistentKeys f.content).isEmpty) then
        (templateFiles.filter fun f => f.type == FileType.natural).map fun f =>
          FsEffect.write sourceLang f.name (Json.obj (fixContent f.content))
      else []
    if (templateFiles.filter fun f => f.type == FileType.keyBased).any
        (fun f => !(invalidKeys f.originalContent).isEmpty) then
      Except.error "invalid keys in key-based source files"
    else
      let perLang := targetLanguages.map
        (processLanguage availableLanguages service deleteUnused tr templateFiles loadExisting)
      Except.ok (fixEffects ++ (perLang.map Prod.fst).flatten, perLang.map Prod.snd)

/-! ## Claim theorems -/

theorem contains_iff_mem {α : Type} [BEq α] [LawfulBEq α] (l : List α) (a : α) :
    l.contains a = true ↔ a ∈ l := by
  simp [List.contains_iff_exists_mem_beq]

theorem objLookup_eq_of_mem {α : Type} (m : List (String × α)) (k : String) (v : α)
    (hnd : (m.map Prod.fst).Nodup) (hm : (k, v) ∈ m) : objLookup m k = some v := by
  induction m with
  | nil => cases hm
  | cons e rest ih =>
    obtain ⟨k0, v0⟩ := e
    simp only [List.map_cons, List.nodup_cons] at hnd
    rcases List.mem_cons.mp hm with heq | hm'
    · obtain ⟨rfl, rfl⟩ := Prod.mk.injEq .. ▸ heq
      simp [objLookup]
    · have hk0 : k0 ≠ k := by
        intro h
        subst h
        exact hnd.1 (List.mem_map.mpr ⟨(k0, v), hm', rfl⟩)
      simp only [objLookup, List.find?]
      rw [show ((k0, v0).1 == k) = false by simpa using hk0]
      exact ih hnd.2 hm'

/-- C1. -- For every (template content, existing target keys) pair,
`stringsToTranslate` is exactly the template keys absent from the target, in
template enumeration order, and `unusedStrings` is exactly the target keys
absent from the template, in target enumeration order; the set equations
`stringsToTranslate ∪ (T ∩ E) = T`, `unusedStrings ∪ (T ∩ E) = E` and
`stringsToTranslate ∩ (T ∩ E) = ∅` hold; and the value paired with each key
to translate is the template's stored value (joined with a single space if
it is an array) for key-based templates, and the key itself for natural
templates. -/
theorem C1_diff_spec (ftype : FileType) (content : List (String × Json))
    (existingKeys : List String) (hnd : (content.map Prod.fst).Nodup) :
    ((stringsToTranslate ftype content existingKeys).map Prod.fst
        = (content.map Prod.fst).filter fun k => !(existingKeys.contains k)) ∧
    (unusedStrings existingKeys (content.map Prod.fst)
        = existingKeys.filter fun k => !((content.map Prod.fst).contains k)) ∧
    (((stringsToTranslate ftype content existingKeys).map Prod.fst).toFinset
        ∪ ((content.map Prod.fst).toFinset ∩ existingKeys.toFinset)
        = (content.map Prod.fst).toFinset) ∧
    ((unusedStrings existingKeys (content.map Prod.fst)).toFinset
        ∪ ((content.map Prod.fst).toFinset ∩ existingKeys.toFinset)
        = existingKeys.toFinset) ∧
    (((stringsToTranslate ftype content existingKeys).map Prod.fst).toFinset
        ∩ ((content.map Prod.fst).toFinset ∩ existingKeys.toFinset) = ∅) ∧
    (∀ p ∈ stringsToTranslate ftype content existingKeys,
      ftype = FileType.natural → p.2 = Json.str p.1) ∧
    (∀ k v, (k, v) ∈ content → ftype = FileType.keyBased →
      existingKeys.contains k = false →
      (k, match v with
          | Json.arr xs => Json.str (jsJoin " " xs)
          | v => v) ∈ stringsToTranslate ftype content existingKeys) := by
  have hmap : (stringsToTranslate ftype content existingKeys).map Prod.fst
      = (content.map Prod.fst).filter fun k => !(existingKeys.contains k) := by
    unfold stringsToTranslate
    rw [List.map_map]
    have hid : (Prod.fst ∘ fun key : String =>
        ((key : String),
          if ftype = FileType.keyBased then
            match objLookup content key with
            | some (Json.arr xs) => Json.str (jsJoin " " xs)
            | some v => v
            | none => Json.str key
          else Json.str key)) = fun k => k := rfl
    rw [hid, List.map_id']
  refine ⟨hmap, rfl, ?_, ?_, ?_, ?_, ?_⟩
  · rw [hmap]
    ext x
    simp only [Finset.mem_union, Finset.mem_inter, List.mem_toFinset, List.mem_filter,
      Bool.not_eq_true', contains_eq_false_iff_not_mem]
    constructor
    · rintro (⟨hT, -⟩ | ⟨hT, -⟩) <;> exact hT
    · intro hT
      by_cases hE : x ∈ existingKeys
      · exact Or.inr ⟨hT, hE⟩
      · exact Or.inl ⟨hT, hE⟩
  · ext x
    simp only [Finset.mem_union, Finset.mem_inter, List.mem_toFinset, unusedStrings,
      List.mem_filter, Bool.not_eq_true', contains_eq_false_iff_not_mem]
    constructor
    · rintro (⟨hE, -⟩ | ⟨-, hE⟩) <;> exact hE
    · intro hE
      by_cases hT : x ∈ content.map Prod.fst
      · exact Or.inr ⟨hT, hE⟩
      · exact Or.inl ⟨hE, hT⟩
  · rw [hmap]
    ext x
    simp only [Finset.mem_inter, List.mem_toFinset, List.mem_filter, Bool.not_eq_true',
      contains_eq_false_iff_not_mem, Finset.not_mem_empty, iff_false, not_and]
    rintro ⟨-, hnE⟩ - hE
    exact hnE hE
  · intro p hp hft
    subst hft
    unfold stringsToTranslate at hp
    obtain ⟨k, -, rfl⟩ := List.mem_map.mp hp
    simp
  · intro k v hkv hft hE
    subst hft
    unfold stringsToTranslate
    apply List.mem_map.mpr
    have hkT : k ∈ content.map Prod.fst := List.mem_map.mpr ⟨(k, v), hkv, rfl⟩
    have hE2 : (!existingKeys.contains k) = true := by rw [hE]; rfl
    refine ⟨k, List.mem_filter.mpr ⟨hkT, hE2⟩, ?_⟩
    rw [if_pos rfl, objLookup_eq_of_mem content k v hnd hkv]
    cases v <;> rfl

/-- Witness for C1 at a concrete key-based template and target. -/
theorem C1_diff_spec_witness :
    (([("a", Json.str "x"), ("b", Json.arr ["p", "q"]), ("c", Json.str "y")].map
        (Prod.fst (β := Json))).Nodup) ∧
    ((stringsToTranslate FileType.keyBased
        [("a", Json.str "x"), ("b", Json.arr ["p", "q"]), ("c", Json.str "y")]
        ["a", "old"]).map Prod.fst = ["b", "c"]) := by
  constructor
  · decide
  · have h := C1_diff_spec FileType.keyBased
      [("a", Json.str "x"), ("b", Json.arr ["p", "q"]), ("c", Json.str "y")]
      ["a", "old"] (by decide)
    rw [h.1]
    decide

/-- C9. -- `detectFileType` inspects only top-level entries whose value is
a string and returns `natural` iff at least one such entry's key contains a
`'.'` or a space character, otherwise `key-based`; it is a pure, total
function (never `auto`), and an object with zero string-valued entries
yields `key-based`.  Determinism is intrinsic: the embedding is a function
of the parsed document alone. -/
theorem C9_detectFileType_spec (json : List (String × Json)) :
    (detectFileType json = FileType.natural ↔
      ∃ k v, (k, v) ∈ json ∧ (∃ s, v = Json.str s) ∧
        (jsIncludes k '.' = true ∨ jsIncludes k ' ' = true)) ∧
    (detectFileType json = FileType.natural ∨ detectFileType json = FileType.keyBased) ∧
    detectFileType json ≠ FileType.auto ∧
    ((∀ e ∈ json, ∀ s, e.2 ≠ Json.str s) → detectFileType json = FileType.keyBased) := by
  have hiff : 0 < (json.filter fun e =>
      (match e.2 with | Json.str _ => true | _ => false)
        && (jsIncludes e.1 '.' || jsIncludes e.1 ' ')).length ↔
      ∃ k v, (k, v) ∈ json ∧ (∃ s, v = Json.str s) ∧
        (jsIncludes k '.' = true ∨ jsIncludes k ' ' = true) := by
    rw [List.length_pos_iff_exists_mem]
    constructor
    · rintro ⟨e, he⟩
      obtain ⟨hej, hcond⟩ := List.mem_filter.mp he
      obtain ⟨k, v⟩ := e
      rw [Bool.and_eq_true, Bool.or_eq_true] at hcond
      cases v with
      | str s => exact ⟨k, Json.str s, hej, ⟨s, rfl⟩, hcond.2⟩
      | arr xs => simp at hcond
      | obj kvs => simp at hcond
    · rintro ⟨k, v, hm, ⟨s, rfl⟩, hks⟩
      refine ⟨(k, Json.str s), List.mem_filter.mpr ⟨hm, ?_⟩⟩
      rw [Bool.and_eq_true, Bool.or_eq_true]
      exact ⟨rfl, hks⟩
  refine ⟨?_, ?_, ?_, ?_⟩
  · simp only [detectFileType]
    split_ifs with h
    · simpa using hiff.mp h
    · simp only [false_iff]
      rw [← hiff]
      intro hc
      exact absurd hc (by simpa using h)
  · simp only [detectFileType]
    split_ifs <;> simp
  · simp only [detectFileType]
    split_ifs <;> simp
  · intro hzero
    simp only [detectFileType]
    rw [if_neg]
    intro hpos
    obtain ⟨k, v, hm, ⟨s, rfl⟩, -⟩ := hiff.mp hpos
    exact hzero (k, Json.str s) hm s rfl

/-- Witness for C9 at a concrete document with no string-valued entries. -/
theorem C9_detectFileType_spec_witness :
    detectFileType [("a b", Json.obj [("b c", Json.str "x")])] = FileType.keyBased :=
  (C9_detectFileType_spec [("a b", Json.obj [("b c", Json.str "x")])]).2.2.2
    (by
      intro e he s
      rcases List.mem_singleton.mp he with rfl
      simp)

/-- C4 counterexample. -- For the inconsistent natural template content
`{"Save": "Guardar"}` and no existing target, the orchestrator submits
`{key: "Save", value: "Save"}` — the key, not the stored value
`"Guardar"` — contradicting the claim that the current stored values are
used as the source text. -/
theorem C4_counterexample :
    stringsToTranslate FileType.natural [("Save", Json.str "Guardar")] []
      = [("Save", Json.str "Save")] ∧
    (Json.str "Save" : Json) ≠ Json.str "Guardar" := by
  refine ⟨rfl, ?_⟩
  simp

/-- C4 (amended). -- When a natural template file contains inconsistent
keys and the fix directive is not given, the run proceeds (the
inconsistency is non-fatal), but the source text submitted for each key to
translate is the key itself; the stored (possibly inconsistent) values are
not consulted.  The second conjunct exhibits a complete run over an
inconsistent natural template that still succeeds. -/
theorem C4_natural_submits_key :
    (∀ (content : List (String × Json)) (existingKeys : List String),
      ∀ p ∈ stringsToTranslate FileType.natural content existingKeys,
        p.2 = Json.str p.1) ∧
    (∃ r, runTranslate ["en", "de"] "en" true true ["en", "de"] "Google Translate"
        "google-translate" false false (fun k _ => k)
        [⟨"ui.json", [("Save", Json.str "Guardar")], FileType.natural,
          [("Save", Json.str "Guardar")]⟩]
        (fun _ => []) = Except.ok r) := by
  constructor
  · intro content existingKeys p hp
    unfold stringsToTranslate at hp
    obtain ⟨k, -, rfl⟩ := List.mem_map.mp hp
    simp
  · exact ⟨_, rfl⟩

/-- Modelled aliasing semantics of `loadTranslations`
(`src/util/file-system.ts:23-43`): Node's `require` caches modules by
resolved path, so the three `require(path.resolve(directory, f))` calls
return one shared object, and `arrayToString` mutates that object in place
(`obj[key] = obj[key].join(sepKey)`); hence after loading a `key-based`
file, the `originalContent` field holds the mutated object. -/
def originalContentAfterLoad (parsed : List (String × Json)) (t : FileType) :
    List (String × Json) :=
  if t = FileType.keyBased then arrayToString parsed else parsed

/-- C6. -- Evaluating the load step at the failing input
`{"items": ["a", "b"]}` (key-based): after `loadTranslations`, the
`originalContent` is `{"items": "a <sep /> b"}` — the array leaf has been
joined in place — and is no longer the document as parsed. -/
theorem C6_originalContent_mutated :
    originalContentAfterLoad [("items", Json.arr ["a", "b"])] FileType.keyBased
      = [("items", Json.str "a <sep /> b")] ∧
    originalContentAfterLoad [("items", Json.arr ["a", "b"])] FileType.keyBased
      ≠ [("items", Json.arr ["a", "b"])] := by
  have h1 : originalContentAfterLoad [("items", Json.arr ["a", "b"])] FileType.keyBased
      = [("items", Json.str "a <sep /> b")] := rfl
  refine ⟨h1, ?_⟩
  rw [h1]
  simp

/-! ### Lookup lemmas for the merge step -/

theorem objLookup_eq_none_iff {α : Type} (m : List (String × α)) (k : String) :
    objLookup m k = none ↔ k ∉ m.map Prod.fst := by
  unfold objLookup
  rw [Option.map_eq_none', List.find?_eq_none]
  constructor
  · intro h hk
    obtain ⟨e, he, rfl⟩ := List.mem_map.mp hk
    exact absurd (by simp : (e.1 == e.1) = true) (by simpa using h e he)
  · intro h e he
    intro hek
    exact h (List.mem_map.mpr ⟨e, he, by simpa using hek⟩)

theorem objLookup_map_value {α β : Type} (m : List (String × α)) (g : String × α → β)
    (k : String) :
    objLookup (m.map fun e => (e.1, g e)) k
      = (m.find? fun e => e.1 == k).map fun e => g e := by
  induction m with
  | nil => rfl
  | cons e rest ih =>
    unfold objLookup at *
    simp only [List.map_cons, List.find?]
    cases h : (e.1 == k) with
    | true => simp
    | false => simpa using ih

theorem find?_filter_keyed {α : Type} (m : List (String × α)) (q : String × α → Bool)
    (k : String) (hq : ∀ e : String × α, (e.1 == k) = true → q e = true) :
    (m.filter q).find? (fun e => e.1 == k) = m.find? fun e => e.1 == k := by
  induction m with
  | nil => rfl
  | cons e rest ih =>
    by_cases hk : (e.1 == k) = true
    · rw [List.filter_cons, if_pos (hq e hk)]
      simp [List.find?, hk]
    · rw [List.filter_cons]
      split_ifs with hqe
      · simp only [List.find?]
        rw [show (e.1 == k) = false by simpa using hk]
        exact ih
      · rw [List.find?]
        rw [show (e.1 == k) = false by simpa using hk]
        exact ih

theorem objLookup_omitKeys {α : Type} (m : List (String × α)) (ks : List String)
    (k : String) (hk : ks.contains k = false) :
    objLookup (omitKeys m ks) k = objLookup m k := by
  unfold omitKeys objLookup
  rw [find?_filter_keyed]
  intro e he
  have : e.1 = k := by simpa using he
  rw [this, hk]
  rfl

theorem objLookup_filter_none {α : Type} (m : List (String × α)) (q : String × α → Bool)
    (k : String) (h : objLookup m k = none) : objLookup (m.filter q) k = none := by
  rw [objLookup_eq_none_iff] at h ⊢
  intro hk
  obtain ⟨e, he, rfl⟩ := List.mem_map.mp hk
  exact h (List.mem_map.mpr ⟨e, (List.mem_filter.mp he).1, rfl⟩)

theorem objLookup_append {α : Type} (a b : List (String × α)) (k : String) :
    objLookup (a ++ b) k = match objLookup a k with
      | some v => some v
      | none => objLookup b k := by
  induction a with
  | nil => simp [objLookup]
  | cons e rest ih =>
    unfold objLookup at *
    simp only [List.cons_append, List.find?]
    cases h : (e.1 == k) with
    | true => simp
    | false => simpa using ih

theorem objLookup_objSpread_of_none {α : Type} (a b : List (String × α)) (k : String)
    (hb : objLookup b k = none) :
    objLookup (objSpread a b) k = objLookup a k := by
  unfold objSpread
  rw [objLookup_append, objLookup_map_value a (fun e => (objLookup b e.1).getD e.2) k]
  cases hfa : a.find? (fun e => e.1 == k) with
  | some e0 =>
    have he0 : e0.1 = k := by simpa using List.find?_some hfa
    simp only [Option.map_some']
    rw [he0, hb]
    unfold objLookup
    rw [hfa]
    rfl
  | none =>
    simp only [Option.map_none']
    rw [objLookup_filter_none b _ k hb]
    unfold objLookup
    rw [hfa]
    rfl

theorem objInsert_map_fst {α : Type} (acc : List (String × α)) (k : String) (v : α) :
    (objInsert acc k v).map Prod.fst =
      if (acc.map Prod.fst).contains k then acc.map Prod.fst
      else acc.map Prod.fst ++ [k] := by
  unfold objInsert
  split_ifs with h
  · rw [List.map_map]
    apply List.map_congr_left
    intro e _
    simp only [Function.comp_def]
    by_cases he : (e.1 == k) = true
    · rw [if_pos he]
      have h1 : e.1 = k := by simpa using he
      exact h1.symm
    · rw [if_neg he]
  · simp

theorem newKeysObj_keys_subset (ts : List (String × String)) :
    ∀ k ∈ (newKeysObj ts).map Prod.fst, k ∈ ts.map Prod.fst := by
  unfold newKeysObj
  suffices h : ∀ acc, ∀ k ∈ ((ts.foldl (fun acc e => objInsert acc e.1 e.2) acc).map Prod.fst),
      k ∈ acc.map Prod.fst ∨ k ∈ ts.map Prod.fst by
    intro k hk
    rcases h [] k hk with h0 | h1
    · simp at h0
    · exact h1
  induction ts with
  | nil =>
    intro acc k hk
    exact Or.inl hk
  | cons e rest ih =>
    intro acc k hk
    simp only [List.foldl_cons] at hk
    rcases ih (objInsert acc e.1 e.2) k hk with h0 | h1
    · rw [objInsert_map_fst] at h0
      split_ifs at h0 with hc
      · exact Or.inl h0
      · rcases List.mem_append.mp h0 with h2 | h2
        · exact Or.inl h2
        · rw [List.mem_singleton] at h2
          subst h2
          exact Or.inr (by simp)
    · exact Or.inr (by simp [h1])

theorem stringsToTranslate_map_fst (ftype : FileType) (content : List (String × Json))
    (existingKeys : List String) :
    (stringsToTranslate ftype content existingKeys).map Prod.fst
      = (content.map Prod.fst).filter fun k => !(existingKeys.contains k) := by
  unfold stringsToTranslate
  rw [List.map_map]
  have hid : (Prod.fst ∘ fun key : String =>
      ((key : String),
        if ftype = FileType.keyBased then
          match objLookup content key with
          | some (Json.arr xs) => Json.str (jsJoin " " xs)
          | some v => v
          | none => Json.str key
        else Json.str key)) = fun k => k := rfl
  rw [hid, List.map_id']

/-- C3. -- Every key present in both the template and the existing target
content keeps its existing target value in the merged content (it is never
re-translated), and when deletion of unused strings is not requested, every
`unusedStrings` key of the existing content is preserved verbatim.  The
provider hypothesis `htr` is the external contract that `translateStrings`
preserves the input key identity (its results are keyed by
`stringsToTranslate` keys). -/
theorem C3_frame (T existing : List (String × Json)) (translated : List (String × String))
    (del : Bool) (ftype : FileType)
    (htr : ∀ e ∈ translated,
      e.1 ∈ (stringsToTranslate ftype T (existing.map Prod.fst)).map Prod.fst) :
    (∀ k, k ∈ T.map Prod.fst → k ∈ existing.map Prod.fst →
      objLookup (translatedFile existing
        ((newKeysObj translated).map fun e => (e.1, Json.str e.2)) del
        (unusedStrings (existing.map Prod.fst) (T.map Prod.fst))) k
        = objLookup existing k) ∧
    (del = false → ∀ k ∈ unusedStrings (existing.map Prod.fst) (T.map Prod.fst),
      objLookup (translatedFile existing
        ((newKeysObj translated).map fun e => (e.1, Json.str e.2)) del
        (unusedStrings (existing.map Prod.fst) (T.map Prod.fst))) k
        = objLookup existing k) := by
  have hnew_none : ∀ k, k ∈ existing.map Prod.fst →
      objLookup ((newKeysObj translated).map fun e => (e.1, Json.str e.2)) k = none := by
    intro k hkE
    rw [objLookup_eq_none_iff]
    intro hk
    have hk1 : k ∈ (newKeysObj translated).map Prod.fst := by
      rw [List.map_map] at hk
      obtain ⟨e, he, rfl⟩ := List.mem_map.mp hk
      exact List.mem_map.mpr ⟨e, he, rfl⟩
    have hk2 := newKeysObj_keys_subset translated k hk1
    obtain ⟨e, he, rfl⟩ := List.mem_map.mp hk2
    have hk3 := htr e he
    rw [stringsToTranslate_map_fst] at hk3
    have := (List.mem_filter.mp hk3).2
    rw [Bool.not_eq_true', contains_eq_false_iff_not_mem] at this
    exact this hkE
  constructor
  · intro k hkT hkE
    unfold translatedFile
    rw [objLookup_objSpread_of_none _ _ k (hnew_none k hkE)]
    apply objLookup_omitKeys
    cases del with
    | false => rfl
    | true =>
      simp only [if_pos rfl]
      rw [contains_eq_false_iff_not_mem]
      intro hku
      have := (List.mem_filter.mp hku).2
      rw [Bool.not_eq_true', contains_eq_false_iff_not_mem] at this
      exact this hkT
  · intro hdel k hku
    have hkE : k ∈ existing.map Prod.fst := (List.mem_filter.mp hku).1
    unfold translatedFile
    rw [objLookup_objSpread_of_none _ _ k (hnew_none k hkE)]
    apply objLookup_omitKeys
    rw [hdel]
    rfl

/-- Witness for C3 at a concrete template, target and provider response:
the shared key keeps its existing translation and the unused key survives. -/
theorem C3_frame_witness :
    objLookup (translatedFile
      [("a.b", Json.str "x2"), ("old.key", Json.str "z")]
      ((newKeysObj [("a.c", "y-translated")]).map fun e => (e.1, Json.str e.2)) false
      (unusedStrings ([("a.b", Json.str "x2"), ("old.key", Json.str "z")].map Prod.fst)
        ([("a.b", Json.str "x"), ("a.c", Json.str "y")].map Prod.fst))) "a.b"
      = some (Json.str "x2") ∧
    objLookup (translatedFile
      [("a.b", Json.str "x2"), ("old.key", Json.str "z")]
      ((newKeysObj [("a.c", "y-translated")]).map fun e => (e.1, Json.str e.2)) false
      (unusedStrings ([("a.b", Json.str "x2"), ("old.key", Json.str "z")].map Prod.fst)
        ([("a.b", Json.str "x"), ("a.c", Json.str "y")].map Prod.fst))) "old.key"
      = some (Json.str "z") := by
  have h := C3_frame [("a.b", Json.str "x"), ("a.c", Json.str "y")]
    [("a.b", Json.str "x2"), ("old.key", Json.str "z")]
    [("a.c", "y-translated")] false FileType.keyBased
    (by
      intro e he
      rcases List.mem_singleton.mp he with rfl
      rw [stringsToTranslate_map_fst]
      decide)
  constructor
  · have h1 := h.1 "a.b" (by decide) (by decide)
    rw [h1]
    rfl
  · have h2 := h.2 rfl "old.key" (by decide)
    rw [h2]
    rfl

/-- C2 counterexample. -- The codec pipeline on `{"items": ["a"]}` (a
singleton array leaf): `arrayToString` encodes the leaf to the bare string
`"a"`, and the decode step (`stringToArray`) returns a *string*, not an
array of length 1 — the object is not reconstructed, contradicting "every
array leaf, of any length, ... decodes back to an array of the same
length". -/
theorem C2_counterexample :
    roundTrip [("items", Json.arr ["a"])] = some [("items", Json.str "a")] ∧
    (some [("items", Json.str "a")] : Option (List (String × Json)))
      ≠ some [("items", Json.arr ["a"])] := by
  constructor
  · simp [roundTrip, flattenConvert, flattenPaths, arrayToString, unflatten, stringToArray,
      splitValue, jsSplit, jsJoin, dotSplit, dotJoinPath, buildP, splitSeq, sepKey,
      List.intercalate]
  · simp

/-- C2 (amended). -- For every nested key-based object with string or
array leaves whose keys are dot-free and distinct at every level, whose
nested objects are non-empty, whose string leaves do not contain the
reserved separator, and whose array leaves occur at the top level (where
the `arrayToString` pre-encoding applies) with length ≥ 2 and elements free
of the separator's characters (no space): unflattening the flattened form
and re-applying the array decode step reconstructs the object exactly, and
every such array leaf round-trips to an array of the same length. -/
theorem C2_roundTrip_amended (kvs : List (String × Json)) (h : goodTop kvs = true) :
    roundTrip kvs = some kvs :=
  roundTrip_eq_self kvs h

/-- Witness for the amended C2 at a concrete nested document with an array
leaf. -/
theorem C2_roundTrip_amended_witness :
    goodTop [("a", Json.obj [("b", Json.str "hello world")]),
      ("items", Json.arr ["ab", "cd"])] = true ∧
    roundTrip [("a", Json.obj [("b", Json.str "hello world")]),
      ("items", Json.arr ["ab", "cd"])]
      = some [("a", Json.obj [("b", Json.str "hello world")]),
          ("items", Json.arr ["ab", "cd"])] := by
  have hg : goodTop [("a", Json.obj [("b", Json.str "hello world")]),
      ("items", Json.arr ["ab", "cd"])] = true := by
    simp [goodTop, goodTopVal, goodEntries, goodVal, nodupKeys, dotFree, sepFree, spaceFree,
      containsSeq, sepKey, jsIncludes, List.isPrefixOf]
  exact ⟨hg, C2_roundTrip_amended _ hg⟩

theorem dotSplit_single (k : String) (h : dotFree k = true) : dotSplit k = [k] := by
  unfold dotSplit
  apply jsSplit_eq_single "." k (by rw [dot_data]; simp)
  rw [containsSeq_eq_false_iff _ _ (by rw [dot_data]; simp)]
  intro hi
  have hmem : '.' ∈ k.data := hi.subset (by rw [dot_data]; exact List.mem_singleton_self _)
  have hc : k.data.contains '.' = false := by simpa [dotFree] using h
  rw [contains_eq_false_iff_not_mem] at hc
  exact hc hmem

/-- Re-nesting a flat mapping whose keys are dot-free and distinct is the
identity: in particular every value — including a separator-joined
array-encoded string — passes through `flatten.undo` verbatim. -/
theorem unflatten_flat_id : ∀ content : List (String × Json),
    (∀ e ∈ content, dotFree e.1 = true) →
    (content.map Prod.fst).Nodup → unflatten content = content := by
  intro content
  induction content with
  | nil =>
    intro _ _
    simp [unflatten, buildP]
  | cons e rest ih =>
    intro hdot hnd
    obtain ⟨k, v⟩ := e
    simp only [List.map_cons, List.nodup_cons] at hnd
    unfold unflatten
    simp only [List.map_cons]
    rw [dotSplit_single k (hdot (k, v) (List.mem_cons_self _ _))]
    rw [buildP]
    have hfilter : (rest.map fun e => ((dotSplit e.1 : List String), e.2)).filter
        (fun e => !(e.1.head? == some k)) = rest.map fun e => (dotSplit e.1, e.2) := by
      apply List.filter_eq_self.mpr
      intro e' he'
      obtain ⟨e0, he0, rfl⟩ := List.mem_map.mp he'
      rw [dotSplit_single e0.1 (hdot e0 (List.mem_cons_of_mem _ he0))]
      have hne : e0.1 ≠ k := by
        intro hh
        exact hnd.1 (List.mem_map.mpr ⟨e0, he0, hh⟩)
      simp [hne]
    rw [hfilter]
    have := ih (fun x hx => hdot x (List.mem_cons_of_mem _ hx)) hnd.2
    unfold unflatten at this
    rw [this]

/-- C5 counterexample. -- The emit step on merged content holding the
array-encoded leaf `"a <sep /> b"`: the written document keeps the joined
*string* — no re-split into `["a", "b"]` happens (`stringToArray` is never
invoked by the orchestrator), contradicting the claim that every
array-encoded leaf is re-split before serialization. -/
theorem C5_counterexample :
    emitContent FileType.keyBased [("items", Json.str "a <sep /> b")]
      = Json.obj [("items", Json.str "a <sep /> b")] ∧
    emitContent FileType.keyBased [("items", Json.str "a <sep /> b")]
      ≠ Json.obj [("items", Json.arr ["a", "b"])] := by
  have h1 : emitContent FileType.keyBased [("items", Json.str "a <sep /> b")]
      = Json.obj [("items", Json.str "a <sep /> b")] := by
    simp [emitContent, unflatten, dotSplit, jsSplit, splitSeq, buildP]
  refine ⟨h1, ?_⟩
  rw [h1]
  simp

/-- C5 (amended). -- When emitting a key-based target file the orchestrator
re-nests the merged flat content via `unflatten` — without re-splitting
array-encoded leaves, which stay separator-joined strings — and natural
content is written as a flat mapping directly.  In particular, for merged
content with dot-free distinct keys the key-based emission is the content
verbatim, joined strings included. -/
theorem C5_emit_amended (content : List (String × Json)) :
    (emitContent FileType.natural content = Json.obj content) ∧
    (emitContent FileType.keyBased content = Json.obj (unflatten content)) ∧
    ((∀ e ∈ content, dotFree e.1 = true) → (content.map Prod.fst).Nodup →
      emitContent FileType.keyBased content = Json.obj content) := by
  refine ⟨rfl, rfl, ?_⟩
  intro hdot hnd
  unfold emitContent
  rw [if_pos rfl, unflatten_flat_id content hdot hnd]

/-- Witness for the amended C5: the array-encoded leaf stays a joined
string in the emitted document. -/
theorem C5_emit_amended_witness :
    emitContent FileType.keyBased [("items", Json.str "a <sep /> b")]
      = Json.obj [("items", Json.str "a <sep /> b")] := by
  apply (C5_emit_amended [("items", Json.str "a <sep /> b")]).2.2
  · intro e he
    rcases List.mem_singleton.mp he with rfl
    decide
  · decide

/-- Witness for the amended C4: the inconsistent stored value "Guardar" is
ignored; the key "Save" itself is submitted. -/
theorem C4_natural_submits_key_witness :
    (stringsToTranslate FileType.natural [("Save", Json.str "Guardar")] []).all
      (fun p => p.2 == Json.str p.1) = true := by
  have h := C4_natural_submits_key.1 [("Save", Json.str "Guardar")] []
  rw [List.all_eq_true]
  intro p hp
  rw [h p hp]
  simp [BEq.beq, Json.beq]

/-- C7 counterexample. -- A dry run with the delete-unused directive and an
obsolete target file: the run still unlinks the file
(`fs.unlinkSync` at `src/index.ts:249` is not guarded by the dry-run
check), so the on-disk file set is *not* left unchanged. -/
theorem C7_counterexample :
    (processLanguage ["en", "de"] "dryRun" true (fun k _ => k)
      [⟨"app.json", [("a", Json.str "x")], FileType.keyBased, [("a", Json.str "x")]⟩]
      (fun _ => [⟨"old.json", [("b", Json.str "y")], FileType.keyBased,
        [("b", Json.str "y")]⟩])
      "de").1 = [FsEffect.delete "de" "old.json"] ∧
    ([FsEffect.delete "de" "old.json"] : List FsEffect) ≠ [] := by
  constructor
  · simp [processLanguage, processFile]
  · simp

/-- C7 (amended). -- When the selected translation provider is the dry-run
strategy, all diff computation and reporting still executes for every
target language and file — the reports equal those produced under any other
service — and no file is *written*; however, under the delete-unused
directive, deletions of obsolete files still occur, so the on-disk file set
may shrink. -/
theorem C7_dryrun_amended (availableLanguages : List String) (del : Bool)
    (tr : String → Json → String) (templateFiles : List TranslationFile)
    (loadExisting : String → List TranslationFile) (language : String) :
    (∀ e ∈ (processLanguage availableLanguages "dryRun" del tr templateFiles
        loadExisting language).1,
      ∀ lang file c, e ≠ FsEffect.write lang file c) ∧
    (∀ service',
      ((processLanguage availableLanguages service' del tr templateFiles
          loadExisting language).2).map (fun r => (r.toTranslate, r.unused))
        = ((processLanguage availableLanguages "dryRun" del tr templateFiles
            loadExisting language).2).map fun r => (r.toTranslate, r.unused)) := by
  constructor
  · intro e he lang file c
    cases hav : availableLanguages.contains language with
    | false =>
      simp only [processLanguage, hav, Bool.not_false, if_pos] at he
      simp at he
    | true =>
      simp only [processLanguage, hav, Bool.not_true, Bool.false_eq_true, if_false] at he
      rcases List.mem_append.mp he with hdel | hwr
      · cases hd : del with
        | false =>
          rw [hd] at hdel
          simp at hdel
        | true =>
          rw [hd] at hdel
          simp only [if_pos] at hdel
          obtain ⟨f, -, rfl⟩ := List.mem_map.mp hdel
          simp
      · rw [List.mem_flatten] at hwr
        obtain ⟨l, hl, hel⟩ := hwr
        obtain ⟨t, -, rfl⟩ := List.mem_map.mp hl
        have hw : (processFile "dryRun" del tr (loadExisting language) t).written = none := by
          unfold processFile
          simp
        rw [hw] at hel
        simp at hel
  · intro service'
    cases hav : availableLanguages.contains language with
    | false =>
      simp only [processLanguage, hav, Bool.not_false, if_pos]
    | true =>
      simp only [processLanguage, hav, Bool.not_true, Bool.false_eq_true, if_false]
      rw [List.map_map, List.map_map]
      apply List.map_congr_left
      intro t _
      unfold processFile
      simp

/-- C8 counterexample. -- A second-run state (every template key already
translated in the target, no unused keys): `stringsToTranslate` is empty,
yet the per-language step still emits a write effect — the claim "produces
no file writes on the second run" is false (the write at
`src/index.ts:300` is unconditional for non-dry-run services). -/
theorem C8_counterexample :
    (processFile "google-translate" false (fun k _ => k)
      [⟨"app.json", [("greeting.hello", Json.str "Salut")], FileType.keyBased,
        [("greeting.hello", Json.str "Salut")]⟩]
      ⟨"app.json", [("greeting.hello", Json.str "Hi")], FileType.keyBased,
        [("greeting.hello", Json.str "Hi")]⟩).toTranslate = [] ∧
    (processLanguage ["en", "de"] "google-translate" false (fun k _ => k)
      [⟨"app.json", [("greeting.hello", Json.str "Hi")], FileType.keyBased,
        [("greeting.hello", Json.str "Hi")]⟩]
      (fun _ => [⟨"app.json", [("greeting.hello", Json.str "Salut")], FileType.keyBased,
        [("greeting.hello", Json.str "Salut")]⟩])
      "de").1 ≠ [] := by
  constructor
  · simp [processFile, stringsToTranslate]
  · simp [processLanguage, processFile]

/-- C8 (amended). -- Running the merge again with no provider-side changes
and no new source keys is the identity on the content: when every template
key is already present in the existing target content (and, if deletion was
requested, every existing key is a template key — the state after a first
run with deletion), `stringsToTranslate` is empty and the merged content
written by the second run equals the existing content exactly; the file is
rewritten with unchanged content, so the on-disk state is a fixed point,
but writes do occur (see the counterexample). -/
theorem C8_fixed_point (ftype : FileType) (T existing : List (String × Json))
    (tr : String → Json → String) (del : Bool)
    (hcov : ∀ k ∈ T.map Prod.fst, k ∈ existing.map Prod.fst)
    (hdel : del = true → ∀ k ∈ existing.map Prod.fst, k ∈ T.map Prod.fst) :
    stringsToTranslate ftype T (existing.map Prod.fst) = [] ∧
    translatedFile existing
      ((newKeysObj ((stringsToTranslate ftype T (existing.map Prod.fst)).map
          fun e => (e.1, tr e.1 e.2))).map fun e => (e.1, Json.str e.2))
      del (unusedStrings (existing.map Prod.fst) (T.map Prod.fst))
      = existing := by
  have hstT : stringsToTranslate ftype T (existing.map Prod.fst) = [] := by
    unfold stringsToTranslate
    rw [List.map_eq_nil_iff, List.filter_eq_nil_iff]
    intro k hk
    have hc := hcov k hk
    rw [← contains_iff_mem] at hc
    rw [hc]
    simp
  refine ⟨hstT, ?_⟩
  rw [hstT]
  have hnew : ((newKeysObj (([] : List (String × Json)).map fun e => (e.1, tr e.1 e.2))).map
      fun e => ((e.1 : String), Json.str e.2)) = ([] : List (String × Json)) := rfl
  rw [hnew]
  unfold translatedFile
  have hspread : ∀ a : List (String × Json), objSpread a [] = a := by
    intro a
    unfold objSpread
    simp [objLookup]
  rw [hspread]
  cases del with
  | false =>
    unfold omitKeys
    simp
  | true =>
    have hun : unusedStrings (existing.map Prod.fst) (T.map Prod.fst) = [] := by
      unfold unusedStrings
      rw [List.filter_eq_nil_iff]
      intro k hk
      have hmem := hdel rfl k hk
      rw [← contains_iff_mem] at hmem
      rw [hmem]
      simp
    rw [hun]
    unfold omitKeys
    simp

/-- Witness for the amended C7: diff reports under the real service equal
those under the dry-run service. -/
theorem C7_dryrun_amended_witness :
    ((processLanguage ["en", "de"] "google-translate" true (fun k _ => k)
      [⟨"app.json", [("a", Json.str "x")], FileType.keyBased, [("a", Json.str "x")]⟩]
      (fun _ => [⟨"old.json", [("b", Json.str "y")], FileType.keyBased,
        [("b", Json.str "y")]⟩]) "de").2).map (fun r => (r.toTranslate, r.unused))
    = ((processLanguage ["en", "de"] "dryRun" true (fun k _ => k)
      [⟨"app.json", [("a", Json.str "x")], FileType.keyBased, [("a", Json.str "x")]⟩]
      (fun _ => [⟨"old.json", [("b", Json.str "y")], FileType.keyBased,
        [("b", Json.str "y")]⟩]) "de").2).map (fun r => (r.toTranslate, r.unused)) :=
  (C7_dryrun_amended ["en", "de"] true (fun k _ => k)
    [⟨"app.json", [("a", Json.str "x")], FileType.keyBased, [("a", Json.str "x")]⟩]
    (fun _ => [⟨"old.json", [("b", Json.str "y")], FileType.keyBased,
      [("b", Json.str "y")]⟩]) "de").2 "google-translate"

/-- Witness for the amended C8 at a concrete second-run state. -/
theorem C8_fixed_point_witness :
    stringsToTranslate FileType.keyBased [("greeting.hello", Json.str "Hi")]
      ([("greeting.hello", Json.str "Salut")].map Prod.fst) = [] ∧
    translatedFile [("greeting.hello", Json.str "Salut")]
      ((newKeysObj ((stringsToTranslate FileType.keyBased
          [("greeting.hello", Json.str "Hi")]
          ([("greeting.hello", Json.str "Salut")].map Prod.fst)).map
          fun e => (e.1, (fun k (_ : Json) => k) e.1 e.2))).map fun e => (e.1, Json.str e.2))
      false (unusedStrings ([("greeting.hello", Json.str "Salut")].map Prod.fst)
        ([("greeting.hello", Json.str "Hi")].map Prod.fst))
      = [("greeting.hello", Json.str "Salut")] :=
  C8_fixed_point FileType.keyBased [("greeting.hello", Json.str "Hi")]
    [("greeting.hello", Json.str "Salut")] (fun k _ => k) false
    (by decide) (fun h => absurd h (by decide))

/-- C10. -- If the provider's available-language list does not include the
source language, `translate` throws (the run becomes an error before any
target language is processed, with no filesystem effect); a target language
absent from that list is instead skipped non-fatally (its per-language step
contributes no effects and no reports) and the run still succeeds. -/
theorem C10_source_language_gate (languageFolders : List String)
    (sourceLang serviceName service : String) (availableLanguages : List String)
    (deleteUnused fixInc : Bool) (tr : String → Json → String)
    (templateFiles : List TranslationFile)
    (loadExisting : String → List TranslationFile) (targetLang : String) :
    (languageFolders.contains sourceLang = true →
     templateFiles.isEmpty = false →
     availableLanguages.contains sourceLang = false →
     runTranslate languageFolders sourceLang true true availableLanguages serviceName
       service deleteUnused fixInc tr templateFiles loadExisting
       = Except.error (serviceName ++ " doesn't support the source language " ++ sourceLang)) ∧
    (availableLanguages.contains targetLang = false →
     processLanguage availableLanguages service deleteUnused tr templateFiles
       loadExisting targetLang = ([], [])) ∧
    (languageFolders.contains sourceLang = true →
     templateFiles.isEmpty = false →
     availableLanguages.contains sourceLang = true →
     ((templateFiles.filter fun f => f.type == FileType.keyBased).any
       (fun f => !(invalidKeys f.originalContent).isEmpty)) = false →
     ∃ r, runTranslate languageFolders sourceLang true true availableLanguages serviceName
       service deleteUnused fixInc tr templateFiles loadExisting = Except.ok r) := by
  refine ⟨?_, ?_, ?_⟩
  · intro h1 h2 h3
    simp only [runTranslate, h1, h2, h3, Bool.not_true, Bool.not_false, Bool.false_eq_true,
      if_false, if_true]
  · intro h
    simp only [processLanguage, h, Bool.not_false, if_true]
  · intro h1 h2 h3 h4
    simp only [runTranslate, h1, h2, h3, h4, Bool.not_true, Bool.not_false,
      Bool.false_eq_true, if_false, if_true]
    exact ⟨_, rfl⟩

/-- Witness for C10: a concrete aborting run (source language unsupported)
and a concrete skipped target language in a succeeding run. -/
theorem C10_source_language_gate_witness :
    (runTranslate ["en", "de"] "en" true true ["fr"] "Google Translate" "google-translate"
      false false (fun k _ => k)
      [⟨"app.json", [("a", Json.str "x")], FileType.keyBased, [("a", Json.str "x")]⟩]
      (fun _ => [])
      = Except.error ("Google Translate" ++ " doesn't support the source language " ++ "en")) ∧
    (processLanguage ["en"] "google-translate" false (fun k _ => k)
      [⟨"app.json", [("a", Json.str "x")], FileType.keyBased, [("a", Json.str "x")]⟩]
      (fun _ => []) "de" = ([], [])) ∧
    (∃ r, runTranslate ["en", "de"] "en" true true ["en"] "Google Translate"
      "google-translate" false false (fun k _ => k)
      [⟨"app.json", [("a", Json.str "x")], FileType.keyBased, [("a", Json.str "x")]⟩]
      (fun _ => []) = Except.ok r) := by
  refine ⟨?_, ?_, ?_⟩
  · exact (C10_source_language_gate ["en", "de"] "en" "Google Translate" "google-translate"
      ["fr"] false false (fun k _ => k)
      [⟨"app.json", [("a", Json.str "x")], FileType.keyBased, [("a", Json.str "x")]⟩]
      (fun _ => []) "de").1 (by decide) (by decide) (by decide)
  · exact (C10_source_language_gate ["en", "de"] "en" "Google Translate" "google-translate"
      ["en"] false false (fun k _ => k)
      [⟨"app.json", [("a", Json.str "x")], FileType.keyBased, [("a", Json.str "x")]⟩]
      (fun _ => []) "de").2.1 (by decide)
  · exact (C10_source_language_gate ["en", "de"] "en" "Google Translate" "google-translate"
      ["en"] false false (fun k _ => k)
      [⟨"app.json", [("a", Json.str "x")], FileType.keyBased, [("a", Json.str "x")]⟩]
      (fun _ => []) "de").2.2 (by decide) (by decide) (by decide) (by simp [invalidKeys, objLookup, jsIncludes])
